import Mathlib

/-!
# Verification of the `anagma` metadata core

A shallow embedding, in Lean 4, of the core components of the `anagma`
library (a sidecar-metadata resolver for hierarchical file trees), together
with proofs and refutations of properties stated in its specification.

Embedded components and their sources:

* sorter           — `src/config/sorter/mod.rs`
* selection        — `src/config/selection/mod.rs`
* plexer           — `src/metadata/plexer.rs`
* aggregator       — `src/metadata/aggregator.rs`
* value model      — `src/metadata/types/val.rs`
* script engine    — `src/metadata/resolver/ops/unary.rs`,
                     `src/functions/util/iterable_like.rs`
* public API       — `src/lib.rs`

Rust machine integers (`i64` lengths, counts) stay well inside their range
in every statement below, so they are modelled as `Int`/`Nat` without
wrap-around.  Filesystem access is modelled by passing the data a read
would produce (directory listings, sidecar parse results) as explicit
arguments.  Iterators are modelled as the full list of items they yield.
-/

deriving instance DecidableEq for Except

namespace Anagma

/-! ## Stable sorting

`slice::sort_by` in Rust is a stable sort driven by a three-way comparator.
It is embedded as insertion sort (`List.insertionSort`) on the reflexive
relation "comparator does not say greater", which is stable and agrees with
every stable sort for a lawful comparator. -/

/-- The relation a Rust comparator sorts by: `cmp a b ≠ Greater`. -/
def cmpLe (cmp : α → α → Ordering) (a b : α) : Prop :=
  cmp a b ≠ Ordering.gt

instance (cmp : α → α → Ordering) : DecidableRel (cmpLe cmp) :=
  fun a b => inferInstanceAs (Decidable (cmp a b ≠ Ordering.gt))

/-- Embedding of Rust `slice::sort_by(cmp)` (a stable comparator sort). -/
def sortByStable (cmp : α → α → Ordering) (l : List α) : List α :=
  List.insertionSort (cmpLe cmp) l

/-! ## Sorter — `src/config/sorter/mod.rs`

`SortBy::cmp_paths` lives in `sort_by.rs`, which compares the two paths by
file name or by modification time; it is kept abstract here as the `cmpBase`
field, since no claim depends on its internals. -/

/-- `SortOrder` from `config/sorter/mod.rs`. -/
inductive SortOrder where
  | ascending
  | descending
deriving DecidableEq, Repr

/-- `Sorter` from `config/sorter/mod.rs`, over an abstract path type `π`.
The `sort_by` field's comparison function is the abstract `cmpBase`. -/
structure Sorter (π : Type) where
  cmpBase : π → π → Ordering
  sortOrder : SortOrder

/-- `Sorter::align`. -/
def Sorter.align (s : Sorter π) (ascOrd : Ordering) : Ordering :=
  match s.sortOrder with
  | .ascending => ascOrd
  | .descending => ascOrd.swap

/-- `Sorter::cmp_paths` (also used as `path_sort_cmp` by the selection). -/
def Sorter.cmpPaths (s : Sorter π) (a b : π) : Ordering :=
  s.align (s.cmpBase a b)

/-- The comparator used on `Result` entries by `Sorter::sort_path_results`
and by the closure inside `Selection::select_in_dir_sorted`: `Err` sorts
before `Ok`, two `Err`s compare equal, two `Ok`s compare by `cmp`. -/
def resultCmp (cmp : π → π → Ordering) : Except ε π → Except ε π → Ordering
  | .ok a, .ok b => cmp a b
  | .error _, .ok _ => Ordering.lt
  | .ok _, .error _ => Ordering.gt
  | .error _, .error _ => Ordering.eq

/-- `Sorter::sort_path_results` from `config/sorter/mod.rs`. -/
def Sorter.sortPathResults (s : Sorter π) (rs : List (Except ε π)) :
    List (Except ε π) :=
  sortByStable (resultCmp s.cmpPaths) rs

/-! ## Selection — `src/config/selection/mod.rs`

`Matcher` (a compiled glob set, `selection/matcher.rs`) is kept abstract as
a boolean predicate on paths; `Selection::is_pattern_match` only calls its
`is_match` method. -/

/-- The private `FileOrDir` enum from `config/selection/mod.rs`. -/
inductive FileOrDir where
  | file
  | dir
deriving DecidableEq, Repr

/-- `Selection` from `config/selection/mod.rs`: four matchers, each
abstracted to the predicate its `is_match` computes. -/
structure Selection (π : Type) where
  includeFiles : π → Bool
  excludeFiles : π → Bool
  includeDirs : π → Bool
  excludeDirs : π → Bool

/-- `Selection::is_pattern_match`. -/
def Selection.isPatternMatch (s : Selection π) (path : π) (fod : FileOrDir) :
    Bool :=
  let (inc, exc) :=
    match fod with
    | .file => (s.includeFiles, s.excludeFiles)
    | .dir => (s.includeDirs, s.excludeDirs)
  inc path && !(exc path)

/-- `Selection::is_file_pattern_match`. -/
def Selection.isFilePatternMatch (s : Selection π) (path : π) : Bool :=
  s.isPatternMatch path .file

/-- `Selection::is_dir_pattern_match`. -/
def Selection.isDirPatternMatch (s : Selection π) (path : π) : Bool :=
  s.isPatternMatch path .dir

/-- `Selection::select_in_dir_sorted`, given the vector of per-entry
results that `select_in_dir` produced for the directory (reading the
directory is I/O and is modelled by passing its output).  The body sorts
that vector with the same `Err`-first comparator as
`Sorter::sort_path_results`. -/
def Selection.selectInDirSorted (sorter : Sorter π)
    (selRes : List (Except ε π)) : List (Except ε π) :=
  sortByStable (resultCmp sorter.cmpPaths) selRes

/-! ## Plexer — `src/metadata/plexer.rs`

The plexer is generic over the block type `β` (in the source, `Block`),
the path type `π` (`Cow<Path>`) and the I/O error type `ε`
(`std::io::Error`).  Its `Iterator::next` is deterministic, so each arm is
embedded as the function from the remaining state to the full output list.
`BlockMapping` is `indexmap::IndexMap<String, Block>`, embedded as an
insertion-ordered association list; `swap_remove` and `pop` below follow
the `IndexMap` methods of those names. -/

namespace Plexer

/-- `plexer::Error`. -/
inductive Error (ε β π : Type) where
  | io (e : ε)
  | unusedItemPath (p : π)
  | unusedBlock (b : β)
  | unusedTaggedBlock (b : β) (tag : String)
  | namelessItemPath (p : π)
deriving DecidableEq

/-- `Schema` (`MetaStructure` in `metadata/structure.rs`): the three shapes
of a parsed sidecar. -/
inductive Schema (β : Type) where
  | one (b : β)
  | seq (bs : List β)
  | map (m : List (String × β))
deriving DecidableEq

/-- One output item of the plexer iterator. -/
abbrev Out (ε β π : Type) := Except (Error ε β π) (π × β)

/-- The `Plexer::One` arm: the full output of repeatedly calling `next`
starting from state `(opt_block, paths)`.  Note that
`(opt_block.take(), path_iter.next())` runs `take()` before matching, so
an `Err` from the path iterator also consumes (and drops) the block. -/
def one : Option β → List (Except ε π) → List (Out ε β π)
  | _, .error e :: ps => .error (.io e) :: one none ps
  | none, [] => []
  | some b, .ok p :: ps => .ok (p, b) :: one none ps
  | none, .ok p :: ps => .error (.unusedItemPath p) :: one none ps
  | some b, [] => [.error (.unusedBlock b)]

/-- The `Plexer::Seq` arm on the already-sorted path list.  As in the
`One` arm, `(block_iter.next(), sorted_path_iter.next())` advances both
iterators before matching, so an `Err` path also consumes one block. -/
def seq : List β → List (Except ε π) → List (Out ε β π)
  | bs, .error e :: ps => .error (.io e) :: seq bs.tail ps
  | b :: bs, .ok p :: ps => .ok (p, b) :: seq bs ps
  | [], .ok p :: ps => .error (.unusedItemPath p) :: seq [] ps
  | bs, [] => bs.map (fun b => .error (.unusedBlock b))

/-- `IndexMap::swap_remove`: remove the entry with key `k`, filling its
slot with the last entry of the map. -/
def swapRemove (k : String) (m : List (String × β)) :
    Option β × List (String × β) :=
  match h : m.findIdx? (fun kb => kb.1 == k) with
  | none => (none, m)
  | some i =>
    have hi : i < m.length := List.findIdx?_eq_some_iff_findIdx_eq.mp h |>.1
    match m.getLast? with
    | none => (none, m)
    | some last => (some (m.get ⟨i, hi⟩).2, (m.set i last).dropLast)

/-- The drain phase of the `Plexer::Map` arm once the path iterator is
exhausted: `IndexMap::pop` removes the **last** entry, so each remaining
block is reported from the back of the map. -/
def popAll : List (String × β) → List (Out ε β π)
  | [] => []
  | kb :: m =>
    match (kb :: m).getLast? with
    | none => []
    | some last =>
      .error (.unusedTaggedBlock last.2 last.1) :: popAll (kb :: m).dropLast
termination_by m => m.length
decreasing_by simp [List.length_dropLast]

/-- The `Plexer::Map` arm: look up (and `swap_remove`) each path's file
name in the mapping, then drain leftovers with `pop`.  `fname` embeds
`path.file_name().and_then(|os| os.to_str())`. -/
def mapArm (fname : π → Option String) :
    List (String × β) → List (Except ε π) → List (Out ε β π)
  | m, [] => popAll m
  | m, .error e :: ps => .error (.io e) :: mapArm fname m ps
  | m, .ok p :: ps =>
    match fname p with
    | none => .error (.namelessItemPath p) :: mapArm fname m ps
    | some n =>
      match swapRemove n m with
      | (none, m1) => .error (.unusedItemPath p) :: mapArm fname m1 ps
      | (some b, m1) => .ok (p, b) :: mapArm fname m1 ps

/-- `Plexer::new` followed by full iteration: the `Seq` arm first collects
the path iterator and sorts it with `Sorter::sort_path_results`. -/
def new (fname : π → Option String) (cmp : π → π → Ordering)
    (schema : Schema β) (paths : List (Except ε π)) : List (Out ε β π) :=
  match schema with
  | .one b => one (some b) paths
  | .seq bs => seq bs (sortByStable (resultCmp cmp) paths)
  | .map m => mapArm fname m paths

/-- Whether a plexer output item is a successful `(path, block)` pair. -/
def Out.isOk : Out ε β π → Bool
  | .ok _ => true
  | .error _ => false

end Plexer

/-- Whether a path-iterator item is an `Ok` path (used to speak about the
`Err`/`Ok` split of result vectors). -/
def resIsOk : Except ε π → Bool
  | .ok _ => true
  | .error _ => false

/-! ## Value model — `src/metadata/types/val.rs`

`MetaVal` is the recursive metadata value type.  `BigDecimal` (the crate
type behind `Dec`) is an arbitrary-precision signed decimal, represented
by an unscaled integer and a scale: its numeric value is
`unscaled * 10 ^ (-scale)`.  `MetaKey` lives in `metadata/types/key.rs`,
which is not part of the sources here; per the spec (§3) a key is a string
or an integer. -/

/-- Arbitrary-precision signed decimal (the `bigdecimal::BigDecimal`
representation).  Equality is representation equality; no claim below
depends on comparing equal numbers of different scale. -/
structure BigDec where
  unscaled : Int
  scale : Int
deriving DecidableEq, Repr

/-- Numeric comparison of two decimals, by aligning scales. -/
def BigDec.cmp (a b : BigDec) : Ordering :=
  let s := max a.scale b.scale
  compare (a.unscaled * 10 ^ (s - a.scale).toNat)
    (b.unscaled * 10 ^ (s - b.scale).toNat)

/-- Modelled from the spec: `MetaKey` (`metadata/types/key.rs` is not in
the sources) — a key is a string or an integer (§3). -/
inductive MetaKey where
  | str (s : String)
  | int (i : Int)
deriving DecidableEq, Repr

/-- `MetaVal` from `metadata/types/val.rs`, variants in declaration
order: `Nil, Str, Seq, Map, Int, Bul, Dec`. -/
inductive MetaVal where
  | nil
  | str (s : String)
  | seq (vs : List MetaVal)
  | map (kvs : List (MetaKey × MetaVal))
  | int (i : Int)
  | bul (b : Bool)
  | dec (d : BigDec)

/-- Declaration-order rank of a `MetaVal` variant (used by the derived
ordering). -/
def MetaVal.rank : MetaVal → Nat
  | .nil => 0
  | .str _ => 1
  | .seq _ => 2
  | .map _ => 3
  | .int _ => 4
  | .bul _ => 5
  | .dec _ => 6

/-- Modelled from the spec: comparison of keys — strings lexicographic,
integers numeric (§3); the `Ord` impl itself is in the missing
`metadata/types/key.rs`.  Mixed-kind comparison (never emitted by the
parsers, §3) falls back to variant order. -/
def MetaKey.cmp : MetaKey → MetaKey → Ordering
  | .str a, .str b => compare a b
  | .int a, .int b => compare a b
  | .str _, .int _ => Ordering.lt
  | .int _, .str _ => Ordering.gt

mutual

/-- Modelled from the spec: the total "natural comparison" order on
values used by `Vec::sort` in the `Sort` operator (design note §9; the
`Ord` impl for `MetaVal` is not among the sources).  It is the derived
ordering: variant rank first, then contents, lexicographic on sequences
and mappings, numeric on decimals. -/
def MetaVal.cmp : MetaVal → MetaVal → Ordering
  | .str a, .str b => compare a b
  | .seq a, .seq b => MetaVal.cmpList a b
  | .map a, .map b => MetaVal.cmpKVList a b
  | .int a, .int b => compare a b
  | .bul a, .bul b => compare a b
  | .dec a, .dec b => BigDec.cmp a b
  | a, b => compare a.rank b.rank

/-- Lexicographic comparison of value sequences. -/
def MetaVal.cmpList : List MetaVal → List MetaVal → Ordering
  | [], [] => Ordering.eq
  | [], _ :: _ => Ordering.lt
  | _ :: _, [] => Ordering.gt
  | a :: as1, b :: bs1 =>
    match MetaVal.cmp a b with
    | Ordering.eq => MetaVal.cmpList as1 bs1
    | o => o

/-- Lexicographic comparison of key-value entry lists. -/
def MetaVal.cmpKVList :
    List (MetaKey × MetaVal) → List (MetaKey × MetaVal) → Ordering
  | [], [] => Ordering.eq
  | [], _ :: _ => Ordering.lt
  | _ :: _, [] => Ordering.gt
  | (k1, v1) :: r1, (k2, v2) :: r2 =>
    match MetaKey.cmp k1 k2 with
    | Ordering.eq =>
      match MetaVal.cmp v1 v2 with
      | Ordering.eq => MetaVal.cmpKVList r1 r2
      | o => o
    | o => o

end

mutual

/-- Structural equality of values (`PartialEq`/`Eq` on `MetaVal`);
decimals compare numerically, as `bigdecimal`'s `PartialEq` does. -/
def MetaVal.beq : MetaVal → MetaVal → Bool
  | .nil, .nil => true
  | .str a, .str b => a == b
  | .seq a, .seq b => MetaVal.beqList a b
  | .map a, .map b => MetaVal.beqKVList a b
  | .int a, .int b => a == b
  | .bul a, .bul b => a == b
  | .dec a, .dec b => BigDec.cmp a b == Ordering.eq
  | _, _ => false

/-- Elementwise equality of value sequences. -/
def MetaVal.beqList : List MetaVal → List MetaVal → Bool
  | [], [] => true
  | a :: as1, b :: bs1 => MetaVal.beq a b && MetaVal.beqList as1 bs1
  | _, _ => false

/-- Elementwise equality of key-value entry lists. -/
def MetaVal.beqKVList :
    List (MetaKey × MetaVal) → List (MetaKey × MetaVal) → Bool
  | [], [] => true
  | (k1, v1) :: r1, (k2, v2) :: r2 =>
    k1 == k2 && MetaVal.beq v1 v2 && MetaVal.beqKVList r1 r2
  | _, _ => false

end

/-! ## Script engine, unary operators —
`src/metadata/resolver/ops/unary.rs` and
`src/functions/util/iterable_like.rs`

The operand stack is a vector of operands; a stream operand is modelled by
the list of `Result` items the lazy stream yields.  `NumberLike`
(`resolver/number_like.rs`, not among the sources) is modelled from the
spec's numeric design note (§9): integers and decimals coexist and mixed
arithmetic promotes integers to decimals. -/

/-- The script-engine error kinds relevant to the unary operators
(`resolver::Error`). -/
inductive ScriptError where
  | notIterable
  | notNumeric
  | notComparable
  | emptyStack
  | emptyIterable
deriving DecidableEq, Repr

/-- Modelled from the spec: `NumberLike` (`resolver/number_like.rs` is not
in the sources) — an integer or decimal operand for numeric folds (§9). -/
inductive NumberLike where
  | integer (i : Int)
  | decimal (d : BigDec)
deriving DecidableEq, Repr

/-- Widen an integer to a decimal (losslessly, scale 0). -/
def NumberLike.toDec : NumberLike → BigDec
  | .integer i => ⟨i, 0⟩
  | .decimal d => d

/-- Decimal addition, aligning scales. -/
def BigDec.add (a b : BigDec) : BigDec :=
  let s := max a.scale b.scale
  ⟨a.unscaled * 10 ^ (s - a.scale).toNat +
    b.unscaled * 10 ^ (s - b.scale).toNat, s⟩

/-- Decimal multiplication. -/
def BigDec.mul (a b : BigDec) : BigDec :=
  ⟨a.unscaled * b.unscaled, a.scale + b.scale⟩

/-- Mixed-kind addition: integer + decimal promotes to decimal. -/
def NumberLike.add : NumberLike → NumberLike → NumberLike
  | .integer a, .integer b => .integer (a + b)
  | a, b => .decimal (BigDec.add a.toDec b.toDec)

/-- Mixed-kind multiplication: integer × decimal promotes to decimal. -/
def NumberLike.mul : NumberLike → NumberLike → NumberLike
  | .integer a, .integer b => .integer (a * b)
  | a, b => .decimal (BigDec.mul a.toDec b.toDec)

/-- Numeric comparison, widening integers to decimals. -/
def NumberLike.cmp : NumberLike → NumberLike → Ordering
  | .integer a, .integer b => compare a b
  | a, b => BigDec.cmp a.toDec b.toDec

/-- `max` on number-likes. -/
def NumberLike.maxNL (a b : NumberLike) : NumberLike :=
  match NumberLike.cmp a b with
  | Ordering.lt => b
  | _ => a

/-- `min` on number-likes. -/
def NumberLike.minNL (a b : NumberLike) : NumberLike :=
  match NumberLike.cmp a b with
  | Ordering.gt => b
  | _ => a

/-- `TryInto<NumberLike> for MetaVal`: only `Int` and `Dec` convert. -/
def MetaVal.toNumberLike : MetaVal → Except ScriptError NumberLike
  | .int i => .ok (.integer i)
  | .dec d => .ok (.decimal d)
  | _ => .error .notNumeric

/-- `NumberLike` back into a value. -/
def NumberLike.toMetaVal : NumberLike → MetaVal
  | .integer i => .int i
  | .decimal d => .dec d

/-- An operand on the script-engine stack (`Operand`): a value or a lazy
stream, the stream given by the list of items it yields. -/
inductive Operand where
  | value (v : MetaVal)
  | stream (st : List (Except ScriptError MetaVal))

/-- `IterableLike` from `functions/util/iterable_like.rs`: a stream or an
eager sequence. -/
inductive IterableLike where
  | stream (st : List (Except ScriptError MetaVal))
  | sequence (sq : List MetaVal)

/-- The items an `IterableLike` yields (`IntoIterator for IterableLike`):
stream items as they are, sequence items wrapped in `Ok`. -/
def IterableLike.items : IterableLike → List (Except ScriptError MetaVal)
  | .stream st => st
  | .sequence sq => sq.map .ok

/-- `OperandStack::pop_iterable_like`: pop the top operand and convert it
per `TryFrom<Operand> for IterableLike` — a stream operand is a stream, a
`Seq` value is a sequence, anything else is `NotIterable`. -/
def popIterableLike :
    List Operand → Except ScriptError (IterableLike × List Operand)
  | [] => .error .emptyStack
  | .stream st :: rest => .ok (.stream st, rest)
  | .value (.seq sq) :: rest => .ok (.sequence sq, rest)
  | .value _ :: _ => .error .notIterable

/-- `st.collect::<Result<Vec<_>, _>>()`: collect a stream, stopping at the
first error. -/
def collectResults :
    List (Except ScriptError MetaVal) → Except ScriptError (List MetaVal)
  | [] => .ok []
  | .error e :: _ => .error e
  | .ok v :: rest => (collectResults rest).map (v :: ·)

/-- Force an iterable to an eager vector, as the `Collect`/`Rev`/`Sort`
arm does: a stream is collected (first error propagates), a sequence is
already eager. -/
def IterableLike.force : IterableLike → Except ScriptError (List MetaVal)
  | .stream st => collectResults st
  | .sequence sq => .ok sq

/-- `UnaryOp` from `resolver/ops/unary.rs`. -/
inductive UnaryOp where
  | collect
  | count
  | first
  | last
  | maxIn
  | minIn
  | rev
  | sum
  | product
  | allEqual
  | sort
deriving DecidableEq, Repr

/-- The numeric fold shared by `MaxIn`/`MinIn` (accumulating an optional
extremum) over the items of an iterable. -/
def foldNumOpt (f : NumberLike → NumberLike → NumberLike) :
    Option NumberLike → List (Except ScriptError MetaVal) →
    Except ScriptError (Option NumberLike)
  | m, [] => .ok m
  | _, .error e :: _ => .error e
  | m, .ok v :: rest =>
    match v.toNumberLike with
    | .error e => .error e
    | .ok n => foldNumOpt f (some (match m with | none => n | some c => f c n)) rest

/-- The numeric fold shared by `Sum`/`Product` (accumulating from an
identity) over the items of an iterable. -/
def foldNum (f : NumberLike → NumberLike → NumberLike) :
    NumberLike → List (Except ScriptError MetaVal) →
    Except ScriptError NumberLike
  | t, [] => .ok t
  | _, .error e :: _ => .error e
  | t, .ok v :: rest =>
    match v.toNumberLike with
    | .error e => .error e
    | .ok n => foldNum f (f t n) rest

/-- The `AllEqual` scan: compare every further item with the first,
stopping (successfully) at the first mismatch. -/
def allEqualFrom (first : MetaVal) :
    List (Except ScriptError MetaVal) → Except ScriptError Bool
  | [] => .ok true
  | .error e :: _ => .error e
  | .ok v :: rest =>
    if MetaVal.beq v first then allEqualFrom first rest else .ok false

/-- `impl Op for UnaryOp`: `process` pops the operands it needs from the
stack and pushes exactly one result operand. -/
def UnaryOp.process (op : UnaryOp) (stack : List Operand) :
    Except ScriptError (List Operand) :=
  match op with
  | .collect | .rev | .sort =>
    match popIterableLike stack with
    | .error e => .error e
    | .ok (il, rest) =>
      match il.force with
      | .error e => .error e
      | .ok coll =>
        let coll1 :=
          match op with
          | .rev => coll.reverse
          | .sort => sortByStable MetaVal.cmp coll
          | _ => coll
        .ok (.value (.seq coll1) :: rest)
  | .count =>
    match popIterableLike stack with
    | .error e => .error e
    | .ok (il, rest) =>
      match il.force with
      | .error e => .error e
      | .ok coll => .ok (.value (.int coll.length) :: rest)
  | .first =>
    match popIterableLike stack with
    | .error e => .error e
    | .ok (il, rest) =>
      match il.items.head?.getD (.ok .nil) with
      | .error e => .error e
      | .ok v => .ok (.value v :: rest)
  | .last =>
    match popIterableLike stack with
    | .error e => .error e
    | .ok (il, rest) =>
      match il.force with
      | .error e => .error e
      | .ok coll => .ok (.value (coll.getLast?.getD .nil) :: rest)
  | .maxIn =>
    match popIterableLike stack with
    | .error e => .error e
    | .ok (il, rest) =>
      match foldNumOpt NumberLike.maxNL none il.items with
      | .error e => .error e
      | .ok none => .error .emptyIterable
      | .ok (some m) => .ok (.value m.toMetaVal :: rest)
  | .minIn =>
    match popIterableLike stack with
    | .error e => .error e
    | .ok (il, rest) =>
      match foldNumOpt NumberLike.minNL none il.items with
      | .error e => .error e
      | .ok none => .error .emptyIterable
      | .ok (some m) => .ok (.value m.toMetaVal :: rest)
  | .sum =>
    match popIterableLike stack with
    | .error e => .error e
    | .ok (il, rest) =>
      match foldNum NumberLike.add (.integer 0) il.items with
      | .error e => .error e
      | .ok t => .ok (.value t.toMetaVal :: rest)
  | .product =>
    match popIterableLike stack with
    | .error e => .error e
    | .ok (il, rest) =>
      match foldNum NumberLike.mul (.integer 1) il.items with
      | .error e => .error e
      | .ok t => .ok (.value t.toMetaVal :: rest)
  | .allEqual =>
    match popIterableLike stack with
    | .error e => .error e
    | .ok (il, rest) =>
      match il.items with
      | [] => .ok (.value (.bul true) :: rest)
      | .error e :: _ => .error e
      | .ok v0 :: more =>
        match allEqualFrom v0 more with
        | .error e => .error e
        | .ok b => .ok (.value (.bul b) :: rest)

/-! ## Aggregator — `src/metadata/aggregator.rs`

`resolve_field_children_helper` walks the tree beneath an item with an
explicit `VecDeque` frontier, calling `resolve_field` (process the node's
flattened block, take the requested field) at every frontier path.  The
filesystem together with the per-node outcome of those calls is modelled
as a tree: each node carries the `Except`-result that `resolve_field`
returns at its path (`ε` is the aggregator error type, `α` the field-value
type), and each directory carries the result of
`select_in_dir_sorted` on it — its selected children in sorted order, or
the selection error.  A node's own position is tracked as the list of
child indices from the walk's root, so that "strict descendant" is
"proper extension of the index list". -/

/-- A filesystem node as the aggregator sees it: `res` is what
`resolve_field` returns at the node, `sel` (for directories) what
`select_in_dir_sorted` returns. -/
inductive FsTree (ε α : Type) where
  | file (res : Except ε (Option α))
  | dir (res : Except ε (Option α)) (sel : Except ε (List (FsTree ε α)))

/-- The `resolve_field` outcome at a node. -/
def FsTree.res : FsTree ε α → Except ε (Option α)
  | .file r => r
  | .dir r _ => r

/-- A node position: the list of child indices from the walk's root. -/
abbrev Pos := List Nat

/-- Tag each child of a node at position `pos` with its own position
`pos ++ [index]`, starting at `index = i`. -/
def posTag (pos : Pos) (i : Nat) :
    List (FsTree ε α) → List (Pos × FsTree ε α)
  | [] => []
  | c :: cs => (pos ++ [i], c) :: posTag pos (i + 1) cs

mutual

/-- Size of a tree (for frontier termination). -/
def FsTree.size : FsTree ε α → Nat
  | .file _ => 1
  | .dir _ (.error _) => 1
  | .dir _ (.ok cs) => 1 + FsTree.sizeList cs

/-- Total size of a list of trees. -/
def FsTree.sizeList : List (FsTree ε α) → Nat
  | [] => 0
  | t :: ts => FsTree.size t + FsTree.sizeList ts

end

/-- Total size of the trees in a frontier. -/
def frontierSize : List (Pos × FsTree ε α) → Nat
  | [] => 0
  | (_, t) :: rest => t.size + frontierSize rest

theorem FsTree.size_pos (t : FsTree ε α) : 0 < t.size := by
  cases t with
  | file _ => simp [FsTree.size]
  | dir r sel => cases sel <;> simp [FsTree.size]

theorem frontierSize_append (l1 l2 : List (Pos × FsTree ε α)) :
    frontierSize (l1 ++ l2) = frontierSize l1 + frontierSize l2 := by
  induction l1 with
  | nil => simp [frontierSize]
  | cons x xs ih => cases x; simp [frontierSize, ih]; omega

theorem frontierSize_posTag (pos : Pos) (i : Nat)
    (cs : List (FsTree ε α)) :
    frontierSize (posTag pos i cs) = FsTree.sizeList cs := by
  induction cs generalizing i with
  | nil => simp [posTag, frontierSize, FsTree.sizeList]
  | cons c cs ih => simp [posTag, frontierSize, FsTree.sizeList, ih]

theorem frontierSize_lt_cons (pos : Pos) (t : FsTree ε α)
    (rest : List (Pos × FsTree ε α)) :
    frontierSize rest < frontierSize ((pos, t) :: rest) := by
  have := FsTree.size_pos t
  simp [frontierSize]
  try omega

theorem frontierSize_desc (pos : Pos) (r : Except ε (Option α))
    (cs : List (FsTree ε α)) (rest : List (Pos × FsTree ε α)) :
    frontierSize (posTag pos 0 cs ++ rest) <
      frontierSize ((pos, FsTree.dir r (.ok cs)) :: rest) := by
  simp [frontierSize, frontierSize_append, frontierSize_posTag, FsTree.size]
  try omega

/-- The main loop of `resolve_field_children_helper`: repeatedly pop the
front of the frontier; yield the node's error or its field value (pruning
the subtree), or — when the field is absent and the node is a directory —
push its selected, sorted children at the front of the frontier in order. -/
def aggWalk : List (Pos × FsTree ε α) → List (Except ε (α × Pos))
  | [] => []
  | (pos, t) :: rest =>
    match t with
    | .file r =>
      match r with
      | .error e => .error e :: aggWalk rest
      | .ok (some v) => .ok (v, pos) :: aggWalk rest
      | .ok none => aggWalk rest
    | .dir r sel =>
      match r with
      | .error e => .error e :: aggWalk rest
      | .ok (some v) => .ok (v, pos) :: aggWalk rest
      | .ok none =>
        match sel with
        | .error e => .error e :: aggWalk rest
        | .ok cs => aggWalk (posTag pos 0 cs ++ rest)
termination_by l => frontierSize l
decreasing_by
  all_goals first
  | apply frontierSize_desc
  | apply frontierSize_lt_cons

/-- `MetaAggregator::resolve_field_children_helper`: the initial step
enqueues the selected, sorted children of the item itself (when it is a
directory) and then runs the main loop; the item's own `resolve_field`
result is never consulted. -/
def resolveFieldChildrenHelper (t : FsTree ε α) :
    List (Except ε (α × Pos)) :=
  match t with
  | .file _ => []
  | .dir _ (.error e) => [.error e]
  | .dir _ (.ok cs) => aggWalk (posTag [] 0 cs)

/-- `AggMethod` from `metadata/aggregator.rs`. -/
inductive AggMethod where
  | collect
  | first
deriving DecidableEq, Repr

/-- `MetaAggregator::resolve_field_children`: filter the helper's stream
to its `Ok` pairs (errors are logged and skipped), then fold with the
aggregation method — `First` takes the first value (`Nil` when empty),
`Collect` gathers all values into a `Seq`.  The source wraps the result
in `Ok`; it never returns an error. -/
def resolveFieldChildren (t : FsTree ε MetaVal) (m : AggMethod) : MetaVal :=
  let gen := (resolveFieldChildrenHelper t).filterMap fun r =>
    match r with
    | .ok pair => some pair
    | .error _ => none
  match m with
  | .first =>
    match gen.head? with
    | some (v, _) => v
    | none => .nil
  | .collect => .seq (gen.map Prod.fst)

/-- Position `p` is an ancestor of — or equal to — position `q`: the path
at `q` lies in the subtree rooted at `p`. -/
def PosLe (p q : Pos) : Prop := ∃ r, p ++ r = q

/-- Two positions are incomparable: neither path lies in the other's
subtree (in particular, neither is a strict descendant of the other). -/
def PosIncomp (p q : Pos) : Prop := ¬ PosLe p q ∧ ¬ PosLe q p

/-- The originating positions of the successful `(value, path)` pairs in
an aggregator stream. -/
def emittedPositions (l : List (Except ε (α × Pos))) : List Pos :=
  l.filterMap fun r =>
    match r with
    | .ok vp => some vp.2
    | .error _ => none

/-! ## Processor and public API — `src/lib.rs`

`Processor::process_item_file` lives in `metadata/processor.rs`, which is
not among the sources; it is modelled from the spec (§4.5): walk the
item's ancestors root-to-leaf, obtain each level's block from its
sidecars, and merge key-by-key with the deeper level overriding, keeping
first-seen insertion order; any sidecar read/parse failure above the item
propagates as an error. -/

/-- A metadata block (`metadata/block.rs`, insertion-ordered mapping from
string field names to values), as an association list in insertion
order. -/
abbrev Block := List (String × MetaVal)

/-- Modelled from the spec: merging one ancestor level into the flattened
block — for each key of the deeper block, override the existing entry in
place or append it (§4.5 step 3). -/
def blockInsert (acc : Block) (k : String) (v : MetaVal) : Block :=
  if acc.any (fun p => p.1 == k) then
    acc.map (fun p => if p.1 == k then (k, v) else p)
  else
    acc ++ [(k, v)]

/-- Modelled from the spec: apply a deeper block over the accumulated
flattened block, key by key. -/
def blockMerge (acc child : Block) : Block :=
  child.foldl (fun a p => blockInsert a p.1 p.2) acc

/-- `Error` of the processor (`metadata/processor.rs`, not among the
sources): per the spec, failures reading or parsing an ancestor sidecar
propagate as `CannotProcessMetadata(cause)`. -/
inductive ProcessorError where
  | cannotProcessMetadata
deriving DecidableEq, Repr

/-- Modelled from the spec: `Processor::process_item_file`
(`metadata/processor.rs` is not among the sources) — fold the ancestor
levels' sidecar results root-to-leaf into one flattened block; the first
read/parse error aborts the call (§4.5). The input list holds, root
first, each ancestor level's block or its sidecar failure. -/
def processItemFile :
    Block → List (Except ProcessorError Block) → Except ProcessorError Block
  | acc, [] => .ok acc
  | _, .error e :: _ => .error e
  | acc, .ok b :: rest => processItemFile (blockMerge acc b) rest

/-- `get_with_config` from `src/lib.rs`: it calls
`Processor::process_item_file(...).unwrap()`, so an `Err` from the
processor is not returned — it panics.  The panic is modelled as `none`;
a normal return is `some block`. -/
def getWithConfig (ancestors : List (Except ProcessorError Block)) :
    Option Block :=
  match processItemFile [] ancestors with
  | .ok b => some b
  | .error _ => none

/-- `get` from `src/lib.rs`: `get_with_config` under the default
configuration (the configuration only selects which sidecars are read,
which is upstream of the modelled input). -/
def get (ancestors : List (Except ProcessorError Block)) : Option Block :=
  getWithConfig ancestors

/-! # Theorems

First a toolbox of lemmas about the stable comparator sort, shared by the
plexer, selection and script-engine claims; then one theorem (plus
counterexample/witness where required) per specification claim. -/

theorem orderedInsert_front {r : α → α → Prop} [DecidableRel r] {x : α}
    (l : List α) (h : ∀ y ∈ l, r x y) :
    List.orderedInsert r x l = x :: l := by
  cases l with
  | nil => rfl
  | cons b t => simp [List.orderedInsert, if_pos (h b (by simp))]

theorem orderedInsert_append_of_not {r : α → α → Prop} [DecidableRel r]
    {x : α} (es l : List α) (h : ∀ y ∈ es, ¬ r x y) :
    List.orderedInsert r x (es ++ l) = es ++ List.orderedInsert r x l := by
  induction es with
  | nil => simp
  | cons b t ih =>
    simp only [List.cons_append, List.append_eq, List.orderedInsert,
      if_neg (h b (by simp))]
    rw [ih (fun y hy => h y (by simp [hy]))]

/-- Splitting the `Err`-first result sort: the `Err` entries come out
first, in input order, followed by the sorted `Ok` entries. -/
theorem sortResults_split (cmp : π → π → Ordering)
    (rs : List (Except ε π)) :
    sortByStable (resultCmp cmp) rs =
      rs.filter (fun r => !resIsOk r) ++
        sortByStable (resultCmp cmp) (rs.filter resIsOk) := by
  induction rs with
  | nil => rfl
  | cons x rs ih =>
    cases x with
    | error e =>
      have hall : ∀ y ∈ List.insertionSort (cmpLe (resultCmp cmp)) rs,
          cmpLe (resultCmp cmp) (.error e) y := by
        intro y _
        cases y <;> simp [cmpLe, resultCmp]
      simp only [sortByStable, List.insertionSort] at ih ⊢
      rw [orderedInsert_front _ hall, ih]
      simp [resIsOk]
    | ok a =>
      have hskip : ∀ y ∈ rs.filter (fun r => !resIsOk r),
          ¬ cmpLe (resultCmp cmp) (.ok a) y := by
        intro y hy
        rcases List.mem_filter.mp hy with ⟨_, hne⟩
        cases y with
        | ok b => simp [resIsOk] at hne
        | error e => simp [cmpLe, resultCmp]
      simp only [sortByStable, List.insertionSort] at ih ⊢
      rw [ih, orderedInsert_append_of_not _ _ hskip]
      simp [resIsOk]

/-- `orderedInsert` commutes with filtering by a predicate whose holders
are mutually related. -/
theorem filter_orderedInsert {r : α → α → Prop} [DecidableRel r]
    (q : α → Bool) (hq : ∀ y z, q y = true → q z = true → r y z)
    (x : α) (l : List α) :
    (List.orderedInsert r x l).filter q =
      if q x then x :: l.filter q else l.filter q := by
  induction l with
  | nil =>
    by_cases hx : q x <;> simp [List.orderedInsert, List.filter, hx]
  | cons b t ih =>
    by_cases hr : r x b
    · by_cases hx : q x <;>
        simp [List.orderedInsert, if_pos hr, List.filter, hx]
    · have hxb : ¬ (q x = true ∧ q b = true) := fun ⟨h1, h2⟩ => hr (hq x b h1 h2)
      by_cases hx : q x
      · have hb : q b = false := by
          cases hqb : q b
          · rfl
          · exact absurd ⟨hx, hqb⟩ hxb
        simp [List.orderedInsert, if_neg hr, List.filter, hb, ih, hx]
      · by_cases hb : q b <;>
          simp [List.orderedInsert, if_neg hr, List.filter, hb, ih,
            hx]

/-- Stability of the comparator sort: filtering by any predicate whose
holders are mutually `r`-related (in particular, a class of entries the
comparator calls equal) is unchanged by sorting — such entries keep their
relative input order. -/
theorem filter_insertionSort {r : α → α → Prop} [DecidableRel r]
    (q : α → Bool) (hq : ∀ y z, q y = true → q z = true → r y z)
    (l : List α) :
    (List.insertionSort r l).filter q = l.filter q := by
  induction l with
  | nil => rfl
  | cons x t ih =>
    simp only [List.insertionSort]
    rw [filter_orderedInsert q hq, ih]
    by_cases hx : q x <;> simp [List.filter, hx]

/-- The comparator sort really sorts, for a connected and transitive
comparator. -/
theorem sorted_sortByStable (cmp : α → α → Ordering)
    (hconn : ∀ a b, cmp a b = Ordering.gt → cmp b a ≠ Ordering.gt)
    (htrans : ∀ a b c, cmpLe cmp a b → cmpLe cmp b c → cmpLe cmp a c)
    (l : List α) :
    (sortByStable cmp l).Sorted (cmpLe cmp) := by
  letI : IsTotal α (cmpLe cmp) := ⟨by
    intro a b
    by_cases h : cmp a b = Ordering.gt
    · exact Or.inr (hconn a b h)
    · exact Or.inl h⟩
  letI : IsTrans α (cmpLe cmp) := ⟨htrans⟩
  exact List.sorted_insertionSort _ _

theorem orderedInsert_resultCmp_map_ok (cmp : π → π → Ordering) (a : π)
    (l : List π) :
    List.orderedInsert (cmpLe (resultCmp (ε := ε) cmp)) (.ok a)
        (l.map .ok) =
      (List.orderedInsert (cmpLe cmp) a l).map .ok := by
  induction l with
  | nil => rfl
  | cons b t ih =>
    by_cases h : cmp a b = Ordering.gt <;>
      simp [List.orderedInsert, cmpLe, resultCmp, h, ih]

/-- Sorting an error-free result vector is sorting the underlying paths. -/
theorem sortResults_map_ok (cmp : π → π → Ordering) (ps : List π) :
    sortByStable (resultCmp (ε := ε) cmp) (ps.map .ok) =
      (sortByStable cmp ps).map .ok := by
  induction ps with
  | nil => rfl
  | cons p t ih =>
    simp only [sortByStable, List.insertionSort, List.map] at ih ⊢
    rw [ih, orderedInsert_resultCmp_map_ok]

/-! ### Plexer lemmas -/

/-- Draining an `IndexMap` by `pop` emits its entries in reverse order. -/
theorem popAll_eq_reverse (m : List (String × β)) :
    Plexer.popAll (ε := ε) (π := π) m =
      m.reverse.map (fun kb => .error (.unusedTaggedBlock kb.2 kb.1)) := by
  induction m using List.reverseRecOn with
  | nil => simp [Plexer.popAll]
  | append_singleton l x ih =>
    cases l with
    | nil => simp [Plexer.popAll]
    | cons h t =>
      have h1 : ((h :: t) ++ [x]).getLast? = some x := List.getLast?_concat _
      have h2 : ((h :: t) ++ [x]).dropLast = h :: t := List.dropLast_concat ..
      simp only [List.cons_append] at h1 h2 ⊢
      simp [Plexer.popAll, h1, h2, ih]

/-- The `Seq` arm on an error-free path list: zip, then report the excess
side. -/
theorem seq_map_ok (bs : List β) (qs : List π) :
    Plexer.seq (ε := ε) bs (qs.map .ok) =
      ((qs.zip bs).map fun pb => .ok pb) ++
        ((qs.drop bs.length).map fun p => .error (.unusedItemPath p)) ++
        ((bs.drop qs.length).map fun b => .error (.unusedBlock b)) := by
  induction qs generalizing bs with
  | nil => cases bs <;> simp [Plexer.seq]
  | cons p qs ih =>
    cases bs with
    | nil => simp [Plexer.seq, ih]
    | cons b bs => simp [Plexer.seq, ih]

/-! ### Claim C3 -/

/-- Claim C3 is refuted: a Map schema with remaining blocks
`{"a" ↦ 1, "b" ↦ 2}` and an exhausted path iterator emits the leftovers
last-entry-first (`"b"` before `"a"`), not in the mapping's iteration
(insertion) order. -/
theorem C3_counterexample :
    Plexer.mapArm (ε := Unit) (β := Nat) (π := String) some
        [("a", 1), ("b", 2)] [] =
      [.error (.unusedTaggedBlock 2 "b"), .error (.unusedTaggedBlock 1 "a")] ∧
    Plexer.mapArm (ε := Unit) (β := Nat) (π := String) some
        [("a", 1), ("b", 2)] [] ≠
      [.error (.unusedTaggedBlock 1 "a"), .error (.unusedTaggedBlock 2 "b")] := by
  constructor
  · simp [Plexer.mapArm, popAll_eq_reverse]
  · simp [Plexer.mapArm, popAll_eq_reverse]

/-- Claim C3, amended: after the path iterator is exhausted, the blocks
remaining in the mapping are emitted as `UnusedTaggedBlock(block, name)` in
**reverse** of the mapping's residual iteration order (each `pop` removes
the last entry; the residual order itself reflects earlier
swap-removals). -/
theorem C3_amended (fname : π → Option String) (m : List (String × β)) :
    Plexer.mapArm (ε := ε) fname m [] =
      m.reverse.map (fun kb => .error (.unusedTaggedBlock kb.2 kb.1)) := by
  simp [Plexer.mapArm, popAll_eq_reverse]

/-! ### Claim C4 -/

/-- Claim C4 is refuted: with a One schema holding block `7` and a path
iterator yielding `Err` then `Ok 3`, the plexer emits the `Io` error and
then `UnusedItemPath 3` — the error consumed the block, which is never
paired. -/
theorem C4_counterexample :
    Plexer.one (ε := Unit) (β := Nat) (π := Nat) (some 7)
        [.error (), .ok 3] =
      [.error (.io ()), .error (.unusedItemPath 3)] ∧
    Plexer.one (ε := Unit) (β := Nat) (π := Nat) (some 7)
        [.error (), .ok 3] ≠
      [.error (.io ()), .ok (3, 7)] := by
  exact ⟨by decide, by decide⟩

/-- Claim C4, amended: an `Err` from the path iterator passes through as
`Io(err)`, but the same `next` call has already taken the block out of the
`One` state, so the block is dropped: a subsequent `Ok` path yields
`UnusedItemPath`, and the block is reported by no later item either. -/
theorem C4_amended (b : β) (e : ε) (p : π) (rest : List (Except ε π)) :
    Plexer.one (some b) (.error e :: .ok p :: rest) =
      .error (.io e) :: .error (.unusedItemPath p) ::
        Plexer.one none rest := rfl

/-! ### Claim C5 -/

/-- Claim C5: plexing a Seq schema of `k` blocks against an error-free
path list of length `m` emits exactly `min k m` successful pairs — the
sorted paths zipped positionally with the blocks — followed by `|k − m|`
diagnostic errors (`UnusedItemPath` for each extra path, `UnusedBlock`
for each extra block). -/
theorem C5_seq_conservation (fname : π → Option String)
    (cmp : π → π → Ordering) (bs : List β) (ps : List π) :
    Plexer.new (ε := Unit) fname cmp (.seq bs) (ps.map .ok) =
      (((sortByStable cmp ps).zip bs).map fun pb => .ok pb) ++
        (((sortByStable cmp ps).drop bs.length).map
          fun p => .error (.unusedItemPath p)) ++
        ((bs.drop ps.length).map fun b => .error (.unusedBlock b)) ∧
    (Plexer.new (ε := Unit) fname cmp (.seq bs) (ps.map .ok)).countP
        (fun o => Plexer.Out.isOk o) = min bs.length ps.length ∧
    (Plexer.new (ε := Unit) fname cmp (.seq bs) (ps.map .ok)).countP
        (fun o => !Plexer.Out.isOk o) =
      (bs.length - ps.length) + (ps.length - bs.length) := by
  have hlen : (sortByStable cmp ps).length = ps.length :=
    List.length_insertionSort _ _
  have heq : Plexer.new (ε := Unit) fname cmp (.seq bs) (ps.map .ok) =
      (((sortByStable cmp ps).zip bs).map fun pb => .ok pb) ++
        (((sortByStable cmp ps).drop bs.length).map
          fun p => .error (.unusedItemPath p)) ++
        ((bs.drop ps.length).map fun b => .error (.unusedBlock b)) := by
    show Plexer.seq bs (sortByStable (resultCmp cmp) (ps.map .ok)) = _
    rw [sortResults_map_ok, seq_map_ok, hlen]
  refine ⟨heq, ?_, ?_⟩
  · rw [heq, List.countP_append, List.countP_append, List.countP_map,
      List.countP_map, List.countP_map]
    simp only [Function.comp_def, Plexer.Out.isOk, Bool.not_true,
      Bool.not_false, List.countP_true, List.countP_false,
      Function.const_apply, List.length_zip, hlen]
    omega
  · rw [heq, List.countP_append, List.countP_append, List.countP_map,
      List.countP_map, List.countP_map]
    simp only [Function.comp_def, Plexer.Out.isOk, Bool.not_true,
      Bool.not_false, List.countP_true, List.countP_false,
      Function.const_apply, List.length_drop, hlen]
    omega

/-! ### Claim C8 -/

/-- Claim C8: for every selection and path, the file (respectively
directory) pattern match holds iff the corresponding include matcher
accepts the path and the corresponding exclude matcher does not accept
it.  `is_pattern_match` is a pure function of the selection and the path
(the embedding is total and consults nothing else; the source touches no
filesystem state on this code path). -/
theorem C8_pattern_match (s : Selection π) (p : π) :
    (s.isFilePatternMatch p = true ↔
      (s.includeFiles p = true ∧ s.excludeFiles p = false)) ∧
    (s.isDirPatternMatch p = true ↔
      (s.includeDirs p = true ∧ s.excludeDirs p = false)) := by
  constructor <;>
    simp [Selection.isFilePatternMatch, Selection.isDirPatternMatch,
      Selection.isPatternMatch]

/-! ### Claim C9 -/

/-- Claim C9: the output of `select_in_dir_sorted` is the `Err` entries
first — in their input order — followed by the stably sorted `Ok`
entries; in particular every `Err` precedes every `Ok`.  Whenever the
sorter's path comparator is connected and transitive, the whole output is
sorted under the `Err`-first comparator, so the `Ok` paths appear in the
order the sorter induces.  Finally the sort is stable: for any class of
entries the comparator declares mutually equal, filtering the output to
that class gives exactly the input order. -/
theorem C9_select_in_dir_sorted (sorter : Sorter π)
    (rs : List (Except ε π)) :
    Selection.selectInDirSorted sorter rs =
      rs.filter (fun r => !resIsOk r) ++
        Selection.selectInDirSorted sorter (rs.filter resIsOk) ∧
    ((∀ a b, sorter.cmpPaths a b = Ordering.gt →
        sorter.cmpPaths b a ≠ Ordering.gt) →
     (∀ a b c, cmpLe sorter.cmpPaths a b → cmpLe sorter.cmpPaths b c →
        cmpLe sorter.cmpPaths a c) →
      (Selection.selectInDirSorted sorter rs).Sorted
        (cmpLe (resultCmp sorter.cmpPaths))) ∧
    (∀ q : Except ε π → Bool,
      (∀ x y, q x = true → q y = true →
        resultCmp sorter.cmpPaths x y = Ordering.eq) →
      (Selection.selectInDirSorted sorter rs).filter q = rs.filter q) := by
  refine ⟨sortResults_split _ _, ?_, ?_⟩
  · intro hconn htrans
    apply sorted_sortByStable
    · intro a b hab
      cases a with
      | error e => cases b <;> simp [resultCmp] at hab
      | ok x =>
        cases b with
        | error f => simp [resultCmp]
        | ok y =>
          simp only [resultCmp] at hab ⊢
          exact hconn x y hab
    · intro a b c hab hbc
      cases a with
      | error e =>
        cases c with
        | error f => simp [cmpLe, resultCmp]
        | ok z => simp [cmpLe, resultCmp]
      | ok x =>
        cases b with
        | error f => simp [cmpLe, resultCmp] at hab
        | ok y =>
          cases c with
          | error g => simp [cmpLe, resultCmp] at hbc
          | ok z =>
            simp only [cmpLe, resultCmp] at hab hbc ⊢
            exact htrans x y z hab hbc
  · intro q hq
    apply filter_insertionSort
    intro y z hy hz
    simp [cmpLe, hq y z hy hz]

/-- Witness for claim C9 at a concrete sorter (boolean "paths" compared
by `compare`, ascending) and input `[Ok true, Err, Ok false]`, with the
stability class "is an `Err` entry". -/
theorem C9_witness :
    (Selection.selectInDirSorted (ε := Unit) (π := Bool)
        ⟨fun a b => compare a b, .ascending⟩
        [.ok true, .error (), .ok false]).Sorted
      (cmpLe (resultCmp
        (Sorter.cmpPaths ⟨fun a b => compare a b, .ascending⟩))) ∧
    (Selection.selectInDirSorted (ε := Unit) (π := Bool)
        ⟨fun a b => compare a b, .ascending⟩
        [.ok true, .error (), .ok false]).filter
      (fun r => !resIsOk r) =
      ([.ok true, .error (), .ok false] :
        List (Except Unit Bool)).filter (fun r => !resIsOk r) := by
  have h := C9_select_in_dir_sorted (ε := Unit) (π := Bool)
    ⟨fun a b => compare a b, .ascending⟩ [.ok true, .error (), .ok false]
  refine ⟨h.2.1 (by decide) (by decide), h.2.2 (fun r => !resIsOk r) ?_⟩
  intro x y hx hy
  cases x with
  | error e =>
    cases y with
    | error f => rfl
    | ok b => simp [resIsOk] at hy
  | ok a => simp [resIsOk] at hx

/-! ### Aggregator lemmas: positions -/

theorem posLe_append (p r : Pos) : PosLe p (p ++ r) := ⟨r, rfl⟩

theorem posLe_trans {p q s : Pos} (h1 : PosLe p q) (h2 : PosLe q s) :
    PosLe p s := by
  obtain ⟨r1, hr1⟩ := h1
  obtain ⟨r2, hr2⟩ := h2
  exact ⟨r1 ++ r2, by rw [← hr2, ← hr1, List.append_assoc]⟩

theorem posLe_iff_take {p q : Pos} : PosLe p q ↔ q.take p.length = p := by
  constructor
  · rintro ⟨r, rfl⟩
    exact List.take_left _ _
  · intro h
    refine ⟨q.drop p.length, ?_⟩
    calc p ++ q.drop p.length
        = q.take p.length ++ q.drop p.length := by rw [h]
      _ = q := List.take_append_drop _ _

theorem posLe_comparable {p1 p2 q : Pos} (h1 : PosLe p1 q)
    (h2 : PosLe p2 q) : PosLe p1 p2 ∨ PosLe p2 p1 := by
  rw [posLe_iff_take] at h1 h2
  rcases Nat.le_total p1.length p2.length with h | h
  · left
    rw [posLe_iff_take, ← h2, List.take_take, Nat.min_eq_left h, h1]
  · right
    rw [posLe_iff_take, ← h1, List.take_take, Nat.min_eq_left h, h2]

theorem posIncomp_symm {p q : Pos} (h : PosIncomp p q) : PosIncomp q p :=
  ⟨h.2, h.1⟩

theorem posIncomp_extend {p q : Pos} (h : PosIncomp p q) (r : Pos) :
    PosIncomp p (q ++ r) := by
  obtain ⟨hpq, hqp⟩ := h
  constructor
  · intro hle
    rcases posLe_comparable hle (posLe_append q r) with h1 | h1
    · exact hpq h1
    · exact hqp h1
  · intro hle
    exact hqp (posLe_trans (posLe_append q r) hle)

theorem posIncomp_sibling {pos : Pos} {i j : Nat} (hij : i ≠ j) :
    PosIncomp (pos ++ [i]) (pos ++ [j]) := by
  constructor
  · rintro ⟨r, hr⟩
    rw [List.append_assoc] at hr
    have h2 := List.append_cancel_left hr
    simp at h2
    exact hij h2.1
  · rintro ⟨r, hr⟩
    rw [List.append_assoc] at hr
    have h2 := List.append_cancel_left hr
    simp at h2
    exact hij h2.1.symm

theorem mem_posTag {pos : Pos} {x : Pos × FsTree ε α} {i : Nat}
    {cs : List (FsTree ε α)} (hx : x ∈ posTag pos i cs) :
    ∃ j, i ≤ j ∧ x.1 = pos ++ [j] := by
  induction cs generalizing i with
  | nil => simp [posTag] at hx
  | cons c cs ih =>
    simp only [posTag, List.mem_cons] at hx
    rcases hx with rfl | hx
    · exact ⟨i, Nat.le_refl i, rfl⟩
    · obtain ⟨j, hij, hj⟩ := ih hx
      exact ⟨j, by omega, hj⟩

theorem pairwise_posTag (pos : Pos) (i : Nat) (cs : List (FsTree ε α)) :
    List.Pairwise (fun a b => PosIncomp a.1 b.1) (posTag pos i cs) := by
  induction cs generalizing i with
  | nil => simp [posTag]
  | cons c cs ih =>
    simp only [posTag, List.pairwise_cons]
    refine ⟨?_, ih (i + 1)⟩
    intro b hb
    obtain ⟨j, hij, hj⟩ := mem_posTag hb
    rw [hj]
    exact posIncomp_sibling (by omega)

/-! ### Aggregator lemmas: the walk -/

theorem emittedPositions_nil :
    emittedPositions (ε := ε) (α := α) [] = [] := rfl

theorem emittedPositions_cons_error (e : ε)
    (l : List (Except ε (α × Pos))) :
    emittedPositions (.error e :: l) = emittedPositions l := by
  simp [emittedPositions]

theorem emittedPositions_cons_ok (v : α) (p : Pos)
    (l : List (Except ε (α × Pos))) :
    emittedPositions (.ok (v, p) :: l) = p :: emittedPositions l := by
  simp [emittedPositions]

theorem aggWalk_nil : aggWalk (ε := ε) (α := α) [] = [] := by
  simp [aggWalk]

theorem aggWalk_file_error (pos : Pos) (e : ε)
    (rest : List (Pos × FsTree ε α)) :
    aggWalk ((pos, FsTree.file (α := α) (.error e)) :: rest) =
      .error e :: aggWalk rest := by
  simp [aggWalk]

theorem aggWalk_file_some (pos : Pos) (v : α)
    (rest : List (Pos × FsTree ε α)) :
    aggWalk ((pos, FsTree.file (ε := ε) (.ok (some v))) :: rest) =
      .ok (v, pos) :: aggWalk rest := by
  simp [aggWalk]

theorem aggWalk_file_none (pos : Pos) (rest : List (Pos × FsTree ε α)) :
    aggWalk ((pos, FsTree.file (ε := ε) (α := α) (.ok none)) :: rest) =
      aggWalk rest := by
  simp [aggWalk]

theorem aggWalk_dir_error (pos : Pos) (e : ε)
    (sel : Except ε (List (FsTree ε α)))
    (rest : List (Pos × FsTree ε α)) :
    aggWalk ((pos, FsTree.dir (.error e) sel) :: rest) =
      .error e :: aggWalk rest := by
  simp [aggWalk]

theorem aggWalk_dir_some (pos : Pos) (v : α)
    (sel : Except ε (List (FsTree ε α)))
    (rest : List (Pos × FsTree ε α)) :
    aggWalk ((pos, FsTree.dir (.ok (some v)) sel) :: rest) =
      .ok (v, pos) :: aggWalk rest := by
  simp [aggWalk]

theorem aggWalk_dir_sel_error (pos : Pos) (e : ε)
    (rest : List (Pos × FsTree ε α)) :
    aggWalk ((pos, FsTree.dir (α := α) (.ok none) (.error e)) :: rest) =
      .error e :: aggWalk rest := by
  simp [aggWalk]

theorem aggWalk_dir_desc (pos : Pos) (cs : List (FsTree ε α))
    (rest : List (Pos × FsTree ε α)) :
    aggWalk ((pos, FsTree.dir (.ok none) (.ok cs)) :: rest) =
      aggWalk (posTag pos 0 cs ++ rest) := by
  simp [aggWalk]

/-- Every position the walk emits lies in the subtree of some frontier
entry. -/
theorem aggWalk_extends (fr : List (Pos × FsTree ε α)) :
    ∀ e ∈ emittedPositions (aggWalk fr), ∃ pt ∈ fr, PosLe pt.1 e := by
  induction fr using aggWalk.induct with
  | case1 => simp [aggWalk_nil, emittedPositions_nil]
  | case2 pos rest e ih =>
    intro x hx
    rw [aggWalk_file_error, emittedPositions_cons_error] at hx
    obtain ⟨pt, hmem, hle⟩ := ih x hx
    exact ⟨pt, List.mem_cons_of_mem _ hmem, hle⟩
  | case3 pos rest v ih =>
    intro x hx
    rw [aggWalk_file_some, emittedPositions_cons_ok] at hx
    rcases List.mem_cons.mp hx with rfl | hx
    · exact ⟨(x, FsTree.file (.ok (some v))), List.mem_cons_self _ _,
        ⟨[], by simp⟩⟩
    · obtain ⟨pt, hmem, hle⟩ := ih x hx
      exact ⟨pt, List.mem_cons_of_mem _ hmem, hle⟩
  | case4 pos rest ih =>
    intro x hx
    rw [aggWalk_file_none] at hx
    obtain ⟨pt, hmem, hle⟩ := ih x hx
    exact ⟨pt, List.mem_cons_of_mem _ hmem, hle⟩
  | case5 pos rest sel e ih =>
    intro x hx
    rw [aggWalk_dir_error, emittedPositions_cons_error] at hx
    obtain ⟨pt, hmem, hle⟩ := ih x hx
    exact ⟨pt, List.mem_cons_of_mem _ hmem, hle⟩
  | case6 pos rest sel v ih =>
    intro x hx
    rw [aggWalk_dir_some, emittedPositions_cons_ok] at hx
    rcases List.mem_cons.mp hx with rfl | hx
    · exact ⟨(x, FsTree.dir (.ok (some v)) sel), List.mem_cons_self _ _,
        ⟨[], by simp⟩⟩
    · obtain ⟨pt, hmem, hle⟩ := ih x hx
      exact ⟨pt, List.mem_cons_of_mem _ hmem, hle⟩
  | case7 pos rest e ih =>
    intro x hx
    rw [aggWalk_dir_sel_error, emittedPositions_cons_error] at hx
    obtain ⟨pt, hmem, hle⟩ := ih x hx
    exact ⟨pt, List.mem_cons_of_mem _ hmem, hle⟩
  | case8 pos rest cs ih =>
    intro x hx
    rw [aggWalk_dir_desc] at hx
    obtain ⟨pt, hmem, hle⟩ := ih x hx
    rcases List.mem_append.mp hmem with hpt | hpt
    · obtain ⟨j, _, hj⟩ := mem_posTag hpt
      refine ⟨(pos, FsTree.dir (.ok none) (.ok cs)),
        List.mem_cons_self _ _, posLe_trans ?_ hle⟩
      rw [hj]
      exact posLe_append pos [j]
    · exact ⟨pt, List.mem_cons_of_mem _ hpt, hle⟩

/-- If the frontier's positions are pairwise incomparable, so are the
positions the walk emits: emitting a node prunes its whole subtree. -/
theorem aggWalk_pairwise (fr : List (Pos × FsTree ε α))
    (h : List.Pairwise (fun a b => PosIncomp a.1 b.1) fr) :
    List.Pairwise PosIncomp (emittedPositions (aggWalk fr)) := by
  induction fr using aggWalk.induct with
  | case1 => simp [aggWalk_nil, emittedPositions_nil]
  | case2 pos rest e ih =>
    rw [aggWalk_file_error, emittedPositions_cons_error]
    exact ih (List.pairwise_cons.mp h).2
  | case3 pos rest v ih =>
    rw [aggWalk_file_some, emittedPositions_cons_ok]
    rcases List.pairwise_cons.mp h with ⟨hhead, htail⟩
    refine List.Pairwise.cons ?_ (ih htail)
    intro x hx
    obtain ⟨pt, hmem, hle⟩ := aggWalk_extends rest x hx
    obtain ⟨r, hr⟩ := hle
    rw [← hr]
    exact posIncomp_extend (hhead pt hmem) r
  | case4 pos rest ih =>
    rw [aggWalk_file_none]
    exact ih (List.pairwise_cons.mp h).2
  | case5 pos rest sel e ih =>
    rw [aggWalk_dir_error, emittedPositions_cons_error]
    exact ih (List.pairwise_cons.mp h).2
  | case6 pos rest sel v ih =>
    rw [aggWalk_dir_some, emittedPositions_cons_ok]
    rcases List.pairwise_cons.mp h with ⟨hhead, htail⟩
    refine List.Pairwise.cons ?_ (ih htail)
    intro x hx
    obtain ⟨pt, hmem, hle⟩ := aggWalk_extends rest x hx
    obtain ⟨r, hr⟩ := hle
    rw [← hr]
    exact posIncomp_extend (hhead pt hmem) r
  | case7 pos rest e ih =>
    rw [aggWalk_dir_sel_error, emittedPositions_cons_error]
    exact ih (List.pairwise_cons.mp h).2
  | case8 pos rest cs ih =>
    rw [aggWalk_dir_desc]
    rcases List.pairwise_cons.mp h with ⟨hhead, htail⟩
    apply ih
    rw [List.pairwise_append]
    refine ⟨pairwise_posTag pos 0 cs, htail, ?_⟩
    intro a ha b hb
    obtain ⟨j, _, hj⟩ := mem_posTag ha
    rw [hj]
    exact posIncomp_symm (posIncomp_extend (posIncomp_symm (hhead b hb)) [j])

/-! ### Claim C6 -/

/-- Claim C6: for any aggregation over any tree, the emitted `(value,
path)` pairs originate at pairwise incomparable positions — no emitted
pair's path is a strict descendant of another emitted pair's path, since
once a node's processed block contains the field its subtree is never
entered. -/
theorem C6_pruning_antichain (t : FsTree ε α) :
    List.Pairwise PosIncomp
      (emittedPositions (resolveFieldChildrenHelper t)) := by
  cases t with
  | file r => simp [resolveFieldChildrenHelper, emittedPositions]
  | dir r sel =>
    cases sel with
    | error e => simp [resolveFieldChildrenHelper, emittedPositions]
    | ok cs =>
      have hr : resolveFieldChildrenHelper (FsTree.dir r (.ok cs)) =
          aggWalk (posTag [] 0 cs) := rfl
      rw [hr, ← List.append_nil (posTag ([] : Pos) 0 cs)]
      exact aggWalk_pairwise _ (by
        rw [List.append_nil]
        exact pairwise_posTag [] 0 cs)

/-! ### Claim C1 -/

/-- Claim C1 is refuted at the walk's root: an item directory whose own
processed block defines the field (value `"X"`) but with no children
yields `Nil` under method `First` — the item's own value is never
emitted. -/
theorem C1_counterexample :
    resolveFieldChildren (ε := Unit)
        (.dir (.ok (some (.str "X"))) (.ok [])) .first = .nil ∧
    MetaVal.nil ≠ MetaVal.str "X" := by
  refine ⟨?_, by simp⟩
  simp [resolveFieldChildren, resolveFieldChildrenHelper, posTag,
    aggWalk_nil]

/-- Claim C1, amended: the pruning rule holds for every node visited
during the descent — a frontier node whose `resolve_field` result carries
the field's value emits that value at its own path and its subtree is
never entered (its `sel` listing is irrelevant) — but the item the
aggregation starts from is never itself resolved: `resolve_field_children`
ignores the root's own result entirely, so with method `First` the
returned value is the first **descendant** value (`Nil` when no
descendant defines the field). -/
theorem C1_amended :
    (∀ (r1 r2 : Except Unit (Option MetaVal))
        (sel : Except Unit (List (FsTree Unit MetaVal))) (m : AggMethod),
        resolveFieldChildren (.dir r1 sel) m =
          resolveFieldChildren (.dir r2 sel) m) ∧
    (∀ (pos : Pos) (v : α) (sel : Except ε (List (FsTree ε α)))
        (rest : List (Pos × FsTree ε α)),
        aggWalk ((pos, FsTree.dir (.ok (some v)) sel) :: rest) =
          .ok (v, pos) :: aggWalk rest) ∧
    (∀ (pos : Pos) (v : α) (rest : List (Pos × FsTree ε α)),
        aggWalk ((pos, FsTree.file (ε := ε) (.ok (some v))) :: rest) =
          .ok (v, pos) :: aggWalk rest) := by
  refine ⟨?_, aggWalk_dir_some, aggWalk_file_some⟩
  intro r1 r2 sel m
  cases sel <;> rfl

/-! ### Claim C10 -/

/-- Claim C10: for an item path that is not a directory, the aggregation
helper emits nothing at all — whatever the node's own `resolve_field`
result is — so method `First` returns `Nil` and method `Collect` returns
the empty `Sequence`. -/
theorem C10_non_directory (res : Except ε (Option MetaVal)) :
    resolveFieldChildrenHelper (.file res) = [] ∧
    resolveFieldChildren (.file res) .first = .nil ∧
    resolveFieldChildren (.file res) .collect = .seq [] := by
  exact ⟨rfl, rfl, rfl⟩

/-! ### Claim C7 -/

/-- Collecting an error-free stream yields its values. -/
theorem collectResults_map_ok (vs : List MetaVal) :
    collectResults (vs.map .ok) = .ok vs := by
  induction vs with
  | nil => rfl
  | cons v vs ih => simp [collectResults, ih, Except.map]

/-- Claim C7 is refuted: `Sort` on a sequence holding an integer and a
string — values of incompatible kinds — does **not** fail with
`NotComparable`; `Vec::sort` uses the total derived order on all values,
so it succeeds and orders by variant. -/
theorem C7_counterexample :
    UnaryOp.process .sort [.value (.seq [.int 1, .str "a"])] =
      .ok [.value (.seq [.str "a", .int 1])] ∧
    UnaryOp.process .sort [.value (.seq [.int 1, .str "a"])] ≠
      .error .notComparable := by
  have h : UnaryOp.process .sort [.value (.seq [.int 1, .str "a"])] =
      .ok [.value (.seq [.str "a", .int 1])] := by
    simp [UnaryOp.process, popIterableLike, IterableLike.force,
      sortByStable, cmpLe, MetaVal.cmp, MetaVal.rank]
    decide
  refine ⟨h, ?_⟩
  rw [h]
  simp

/-- Claim C7, amended: `Sort` forces its iterable — propagating a stream
error if one occurs — and then always succeeds, pushing the sequence
ordered by the total derived value order (`MetaVal.cmp`); mixed kinds are
ordered by variant rank and `NotComparable` is never raised. -/
theorem C7_amended :
    (∀ (sq : List MetaVal) (rest : List Operand),
        UnaryOp.process .sort (.value (.seq sq) :: rest) =
          .ok (.value (.seq (sortByStable MetaVal.cmp sq)) :: rest)) ∧
    (∀ (vs : List MetaVal) (rest : List Operand),
        UnaryOp.process .sort (.stream (vs.map .ok) :: rest) =
          .ok (.value (.seq (sortByStable MetaVal.cmp vs)) :: rest)) := by
  constructor
  · intro sq rest
    rfl
  · intro vs rest
    simp [UnaryOp.process, popIterableLike, IterableLike.force,
      collectResults_map_ok]

/-! ### Claim C2 -/

/-- Claim C2 is contradicted by the code: `get_with_config` calls
`.unwrap()` on the processor result, so on an input whose ancestor
sidecars fail to read or parse it panics (modelled as `none`) instead of
returning a structured error value.  The intended behaviour — visible in
the commented-out `get_metadata_with_config` in `metadata/mod.rs`, which
maps the processor error into `Error::CannotProcessMetadata` and returns
a `Result` — marks the `unwrap` as a slip, so this is recorded as a code
bug.  Evaluation at the failing input: one ancestor level whose sidecar
fails. -/
theorem C2_unwrap_panics :
    getWithConfig [.error .cannotProcessMetadata] = none ∧
    get [.error .cannotProcessMetadata] = none := ⟨rfl, rfl⟩

end Anagma
